import Mathlib

/-!
Verification of the rendering core of `plato.rs`, a terminal 3-D wireframe
renderer.  The embedding below translates the program's pure computational
core into Lean:

* machine `f32` values that are only ever *compared* (the depth buffer and
  the `z` argument of `draw_line`) are modelled as rationals; the sentinel
  `f32::MIN` is the exact rational `-(2^128 - 2^104)` and a value is
  *finite* when its absolute value is at most `2^128 - 2^104`;
* `f32` arithmetic in the projector and the intensity-to-glyph mapping is
  modelled by exact rational arithmetic (all concrete inputs used in the
  statements below are exactly representable, so the comparisons made by
  the code coincide with the rational ones);
* the vector-math helpers (`normalize`, `dot_product`) are modelled over
  the reals, with `Real.sqrt` for `f32::sqrt`;
* Rust's `as usize` cast of a float (truncation towards zero, saturating
  at `0`) is modelled by `Int.floor` followed by `Int.toNat`, and Rust's
  `%` on `i32` (truncated remainder) by `Int.tmod`;
* the unbounded `loop` of `draw_line` is run on fuel `|dx| + |dy| + 1`,
  which the Bresenham theorems below prove sufficient: the walk reaches
  `(x1, y1)` after exactly `max |dx| |dy|` steps;
* `chars[char_idx]`, which panics in Rust when `char_idx` is out of
  range, is modelled by `List.get?`, so `draw_line` returns an `Option`.
-/

namespace Plato

/-- Canvas width in character cells (`WIDTH` in the source). -/
def WIDTH : ℕ := 160

/-- Canvas height in character cells (`HEIGHT` in the source). -/
def HEIGHT : ℕ := 80

/-- `FOCAL_LENGTH` in the source (`100.0f32`, exactly representable). -/
def FOCAL_LENGTH : ℚ := 100

/-- `CAMERA_DISTANCE` in the source (`10.0f32`, exactly representable). -/
def CAMERA_DISTANCE : ℚ := 10

/-- `f32::MIN`, the least finite `f32`, exactly `-(2 - 2^-23) * 2^127`. -/
def F32MIN : ℚ := -(2 ^ 128 - 2 ^ 104)

/-- `f32::MAX`, the greatest finite `f32`. -/
def F32MAX : ℚ := 2 ^ 128 - 2 ^ 104

/-- Squared euclidean length of a 3-vector, the radicand computed by
`normalize` in the source: `v[0]*v[0] + v[1]*v[1] + v[2]*v[2]`. -/
def sqLen (v : ℝ × ℝ × ℝ) : ℝ := v.1 * v.1 + v.2.1 * v.2.1 + v.2.2 * v.2.2

/-- `normalize` from the source: divide by the euclidean length, returning
the zero vector when the length is zero. -/
noncomputable def normalize (v : ℝ × ℝ × ℝ) : ℝ × ℝ × ℝ :=
  let len := Real.sqrt (sqLen v)
  if len = 0 then (0, 0, 0) else (v.1 / len, v.2.1 / len, v.2.2 / len)

/-- `dot_product` from the source. -/
def dot_product (v1 v2 : ℝ × ℝ × ℝ) : ℝ :=
  v1.1 * v2.1 + v1.2.1 * v2.2.1 + v1.2.2 * v2.2.2

/-- Rust's `f32::round`: round half away from zero. -/
def rustRound (q : ℚ) : ℤ :=
  if 0 ≤ q then Int.floor (q + 1 / 2) else -Int.floor (-q + 1 / 2)

/-- `project_vertex` from the source:
`scale = FOCAL_LENGTH / (z + CAMERA_DISTANCE)`,
`px = round(x * scale + WIDTH/2)`, `py = round(y * scale * 0.5 + HEIGHT/2)`. -/
def project_vertex (x y z : ℚ) : ℤ × ℤ :=
  let scale := FOCAL_LENGTH / (z + CAMERA_DISTANCE)
  (rustRound (x * scale + (WIDTH : ℚ) / 2),
   rustRound (y * scale * (1 / 2) + (HEIGHT : ℚ) / 2))

/-- The 12-character intensity ramp `chars` from `draw_line`. -/
def rampChars : List Char :=
  [' ', '.', ',', ':', ';', '-', '=', '+', '*', '#', '%', '@']

/-- `char_idx` from `draw_line`: `(intensity * (chars.len() - 1) as f32) as usize`.
Rust's float-to-`usize` cast truncates towards zero and saturates at `0`,
which on rationals is `Int.floor` followed by `Int.toNat`. -/
def charIdx (intensity : ℚ) : ℕ :=
  (Int.floor (intensity * ((rampChars.length : ℚ) - 1))).toNat

/-- `chars[char_idx]` from `draw_line`; `none` models the Rust panic when
`char_idx` is past the end of the ramp. -/
def chosenGlyph (intensity : ℚ) : Option Char := rampChars.get? (charIdx intensity)

/-- Modelled from the spec: the glyph index as the specification words it,
`index = round(intensity * (rampLength - 1))` *after clamping intensity to
`[0,1]`*.  This definition exists only to be compared against `charIdx`,
which is the faithful translation of the source. -/
def specCharIdx (intensity : ℚ) : ℕ :=
  (rustRound (max 0 (min intensity 1) * ((rampChars.length : ℚ) - 1))).toNat

/-- The character frame buffer, indexed row-then-column like `screen[y][x]`. -/
abbrev Screen := ℕ → ℕ → Char

/-- The depth buffer, indexed row-then-column like `depth[y][x]`. -/
abbrev Depth := ℕ → ℕ → ℚ

/-- The frame buffer as reset at the start of every frame: all blanks. -/
def blankScreen : Screen := fun _ _ => ' '

/-- The depth buffer as reset at the start of every frame: all `f32::MIN`. -/
def freshDepth : Depth := fun _ _ => F32MIN

/-- The coordinate wrap-and-guard of `draw_line`'s loop body:
`wrapped = (c + SIZE) % SIZE` with Rust's truncated `%`, then the bounds
check `0 <= wrapped && wrapped < SIZE` on both axes; `none` means the
visited point is skipped. -/
def wrapCell (p : ℤ × ℤ) : Option (ℕ × ℕ) :=
  let wx := Int.tmod (p.1 + (WIDTH : ℤ)) (WIDTH : ℤ)
  let wy := Int.tmod (p.2 + (HEIGHT : ℤ)) (HEIGHT : ℤ)
  if 0 ≤ wx ∧ wx < (WIDTH : ℤ) ∧ 0 ≤ wy ∧ wy < (HEIGHT : ℤ) then
    some (wy.toNat, wx.toNat)
  else none

/-- One iteration of `draw_line`'s paint step at a visited point: wrap and
guard the coordinates, then the depth test `z > depth[y][x]`, painting both
buffers on success. -/
def paintCell (z : ℚ) (g : Char) (sd : Screen × Depth) (p : ℤ × ℤ) : Screen × Depth :=
  match wrapCell p with
  | none => sd
  | some c =>
    if sd.2 c.1 c.2 < z then
      (fun iy ix => if iy = c.1 ∧ ix = c.2 then g else sd.1 iy ix,
       fun iy ix => if iy = c.1 ∧ ix = c.2 then z else sd.2 iy ix)
    else sd

/-- The paint step folded over every point visited by the Bresenham walk. -/
def paintCells (z : ℚ) (g : Char) (sd : Screen × Depth) (ps : List (ℤ × ℤ)) :
    Screen × Depth :=
  ps.foldl (paintCell z g) sd

/-- One iteration of the Bresenham stepping logic of `draw_line` on the
state `(x, y, err)`:
`e2 = 2*err; if e2 > -dy { err -= dy; x += sx; } if e2 < dx { err += dx; y += sy; }`. -/
def bresStep (dx dy sx sy : ℤ) (st : ℤ × ℤ × ℤ) : ℤ × ℤ × ℤ :=
  let e2 := 2 * st.2.2
  let x := if -dy < e2 then st.1 + sx else st.1
  let err1 := if -dy < e2 then st.2.2 - dy else st.2.2
  let y := if e2 < dx then st.2.1 + sy else st.2.1
  let err2 := if e2 < dx then err1 + dx else err1
  (x, y, err2)

/-- The Bresenham `loop` of `draw_line` as the list of visited points,
run on explicit fuel: record the current point, stop when it is `(x1, y1)`,
otherwise step. -/
def bresRun (x1 y1 dx dy sx sy : ℤ) : ℕ → ℤ × ℤ × ℤ → List (ℤ × ℤ)
  | 0, _ => []
  | n + 1, st =>
    (st.1, st.2.1) ::
      (if st.1 = x1 ∧ st.2.1 = y1 then []
       else bresRun x1 y1 dx dy sx sy n (bresStep dx dy sx sy st))

/-- The points visited by `draw_line` from `(x0, y0)` to `(x1, y1)`:
`dx = |x1 - x0|`, `dy = |y1 - y0|`, `sx`/`sy` as in the source, starting
error `dx - dy`.  Fuel `dx + dy + 1` is sufficient: the termination
theorem below shows the walk stops after exactly `max dx dy` steps. -/
def bresPoints (x0 y0 x1 y1 : ℤ) : List (ℤ × ℤ) :=
  let dx : ℤ := (x1 - x0).natAbs
  let dy : ℤ := (y1 - y0).natAbs
  let sx : ℤ := if x0 < x1 then 1 else -1
  let sy : ℤ := if y0 < y1 then 1 else -1
  bresRun x1 y1 dx dy sx sy ((x1 - x0).natAbs + (y1 - y0).natAbs + 1) (x0, y0, dx - dy)

/-- `draw_line` from the source: choose the glyph once from the intensity
(`none` models the panic on an out-of-range ramp index), then paint every
visited point of the Bresenham walk under the depth test. -/
def draw_line (screen : Screen) (depth : Depth) (x0 y0 x1 y1 : ℤ) (z intensity : ℚ) :
    Option (Screen × Depth) :=
  (chosenGlyph intensity).map fun g =>
    paintCells z g (screen, depth) (bresPoints x0 y0 x1 y1)

/-- `update_screen` from the source, as the list of emitted display
operations: for every cell, row-major, emit a cursor-move-plus-character
operation `(y+1, x+1, ch)` exactly when the new frame differs from the
previous frame at that cell. -/
def update_screen (screen last_screen : Screen) : List (ℕ × ℕ × Char) :=
  (List.range HEIGHT).flatMap fun y =>
    (List.range WIDTH).filterMap fun x =>
      if screen y x ≠ last_screen y x then some (y + 1, x + 1, screen y x) else none

/-! ### Bresenham walk: stepping lemmas -/

lemma bresRun_succ (x1 y1 dx dy sx sy : ℤ) (n : ℕ) (st : ℤ × ℤ × ℤ) :
    bresRun x1 y1 dx dy sx sy (n + 1) st =
      (st.1, st.2.1) ::
        (if st.1 = x1 ∧ st.2.1 = y1 then []
         else bresRun x1 y1 dx dy sx sy n (bresStep dx dy sx sy st)) := rfl

lemma bresStep_eq (dx dy sx sy x y err : ℤ) :
    bresStep dx dy sx sy (x, y, err) =
      (if -dy < 2 * err then x + sx else x,
       (if 2 * err < dx then y + sy else y,
        if 2 * err < dx then (if -dy < 2 * err then err - dy else err) + dx
        else if -dy < 2 * err then err - dy else err)) := rfl

/-- In the x-dominant case `dy < dx` the walk steps in x on every iteration
and reaches `(x1, y1)` after exactly `r` more steps, where `r` counts the
remaining x-distance.  The error invariant is `-dy < 2 * err` together with
the closed form of `err` in terms of the steps already taken. -/
lemma bresRun_len_domx (a b sx sy x1 y1 : ℤ) (hb : 0 ≤ b) (hab : b < a)
    (hsx : sx = 1 ∨ sx = -1) :
    ∀ (r fuel : ℕ) (s err x y : ℤ), r + 1 ≤ fuel → (r : ℤ) ≤ a → 0 ≤ s → s ≤ b →
      x = x1 - sx * (r : ℤ) → y = y1 - sy * s →
      err = a * (1 + (b - s)) - b * (1 + (a - (r : ℤ))) →
      -b < 2 * err →
      (bresRun x1 y1 a b sx sy fuel (x, y, err)).length = r + 1 := by
  intro r
  induction r with
  | zero =>
    intro fuel s err x y hfuel hra hs0 hsb hxe hye herr hinv
    have hs : s = 0 := by
      by_contra hs
      have hs1 : 1 ≤ s := by omega
      rw [herr] at hinv
      simp only [Nat.cast_zero] at hinv
      nlinarith [mul_le_mul_of_nonneg_left (show 1 + (b - s) ≤ b by omega)
        (show (0 : ℤ) ≤ a by omega)]
    subst hs
    obtain ⟨m, rfl⟩ : ∃ m, fuel = m + 1 := ⟨fuel - 1, by omega⟩
    have hx1 : x = x1 := by rw [hxe]; simp
    have hy1 : y = y1 := by rw [hye]; simp
    rw [bresRun_succ, if_pos ⟨hx1, hy1⟩]
    rfl
  | succ r ih =>
    intro fuel s err x y hfuel hra hs0 hsb hxe hye herr hinv
    obtain ⟨n, rfl⟩ : ∃ n, fuel = n + 1 := ⟨fuel - 1, by omega⟩
    have hxne : x ≠ x1 := by
      rw [hxe]; push_cast; rcases hsx with h | h <;> subst h <;> omega
    rw [bresRun_succ, if_neg (fun hc => hxne hc.1)]
    subst hxe hye
    rw [bresStep_eq]
    have hra2 : (r : ℤ) ≤ a := by push_cast at hra; omega
    by_cases hy2 : 2 * err < a
    · -- both axes step
      simp only [if_pos hinv, if_pos hy2]
      have hs1 : 1 ≤ s := by
        by_contra hs
        have hs0e : s = 0 := by omega
        subst hs0e
        rw [herr] at hy2
        push_cast at hy2
        nlinarith [mul_nonneg hb (show (0 : ℤ) ≤ (r : ℤ) by positivity)]
      have e1 : x1 - sx * ((r : ℕ) + 1 : ℕ) + sx = x1 - sx * (r : ℤ) := by
        push_cast; ring
      have e2 : y1 - sy * s + sy = y1 - sy * (s - 1) := by ring
      have e3 : err - b + a = a * (1 + (b - (s - 1))) - b * (1 + (a - (r : ℤ))) := by
        rw [herr]; push_cast; ring
      rw [List.length_cons, e1, e2, e3]
      rw [ih n (s - 1) _ _ _ (by omega) hra2 (by omega) (by omega) rfl rfl rfl
        (by rw [herr] at hinv; push_cast at hinv; ring_nf at hinv ⊢; linarith)]
    · -- only x steps
      simp only [if_pos hinv, if_neg hy2]
      have e1 : x1 - sx * ((r : ℕ) + 1 : ℕ) + sx = x1 - sx * (r : ℤ) := by
        push_cast; ring
      have e3 : err - b = a * (1 + (b - s)) - b * (1 + (a - (r : ℤ))) := by
        rw [herr]; push_cast; ring
      rw [List.length_cons, e1, e3]
      rw [ih n s _ _ _ (by omega) hra2 hs0 hsb rfl rfl rfl
        (by rw [herr] at hinv; push_cast at hinv; ring_nf at hinv ⊢;
            rw [herr] at hy2; push_cast at hy2; ring_nf at hy2; linarith)]

/-- In the y-dominant case `dx < dy` the walk steps in y on every iteration
and reaches `(x1, y1)` after exactly `s` more steps; the error invariant is
`2 * err < dx`. -/
lemma bresRun_len_domy (a b sx sy x1 y1 : ℤ) (ha : 0 ≤ a) (hab : a < b)
    (hsy : sy = 1 ∨ sy = -1) :
    ∀ (s fuel : ℕ) (r err x y : ℤ), s + 1 ≤ fuel → (s : ℤ) ≤ b → 0 ≤ r → r ≤ a →
      x = x1 - sx * r → y = y1 - sy * (s : ℤ) →
      err = a * (1 + (b - (s : ℤ))) - b * (1 + (a - r)) →
      2 * err < a →
      (bresRun x1 y1 a b sx sy fuel (x, y, err)).length = s + 1 := by
  intro s
  induction s with
  | zero =>
    intro fuel r err x y hfuel hsb hr0 hra hxe hye herr hinv
    have hr : r = 0 := by
      by_contra hr
      have hr1 : 1 ≤ r := by omega
      rw [herr] at hinv
      simp only [Nat.cast_zero] at hinv
      nlinarith [mul_le_mul_of_nonneg_left (show 1 + (a - r) ≤ a by omega)
        (show (0 : ℤ) ≤ b by omega)]
    subst hr
    obtain ⟨m, rfl⟩ : ∃ m, fuel = m + 1 := ⟨fuel - 1, by omega⟩
    have hx1 : x = x1 := by rw [hxe]; simp
    have hy1 : y = y1 := by rw [hye]; simp
    rw [bresRun_succ, if_pos ⟨hx1, hy1⟩]
    rfl
  | succ s ih =>
    intro fuel r err x y hfuel hsb hr0 hra hxe hye herr hinv
    obtain ⟨n, rfl⟩ : ∃ n, fuel = n + 1 := ⟨fuel - 1, by omega⟩
    have hyne : y ≠ y1 := by
      rw [hye]; push_cast; rcases hsy with h | h <;> subst h <;> omega
    rw [bresRun_succ, if_neg (fun hc => hyne hc.2)]
    subst hxe hye
    rw [bresStep_eq]
    have hsb2 : (s : ℤ) ≤ b := by push_cast at hsb; omega
    by_cases hx2 : -b < 2 * err
    · -- both axes step
      simp only [if_pos hinv, if_pos hx2]
      have hr1 : 1 ≤ r := by
        by_contra hr
        have hr0e : r = 0 := by omega
        subst hr0e
        rw [herr] at hx2
        push_cast at hx2
        nlinarith [mul_nonneg ha (show (0 : ℤ) ≤ (s : ℤ) by positivity)]
      have e1 : x1 - sx * r + sx = x1 - sx * (r - 1) := by ring
      have e2 : y1 - sy * ((s : ℕ) + 1 : ℕ) + sy = y1 - sy * (s : ℤ) := by
        push_cast; ring
      have e3 : err - b + a = a * (1 + (b - (s : ℤ))) - b * (1 + (a - (r - 1))) := by
        rw [herr]; push_cast; ring
      rw [List.length_cons, e1, e2, e3]
      rw [ih n (r - 1) _ _ _ (by omega) hsb2 (by omega) (by omega) rfl rfl rfl
        (by rw [herr] at hinv; push_cast at hinv; ring_nf at hinv ⊢; linarith)]
    · -- only y steps
      simp only [if_neg hx2, if_pos hinv]
      have e2 : y1 - sy * ((s : ℕ) + 1 : ℕ) + sy = y1 - sy * (s : ℤ) := by
        push_cast; ring
      have e3 : err + a = a * (1 + (b - (s : ℤ))) - b * (1 + (a - r)) := by
        rw [herr]; push_cast; ring
      rw [List.length_cons, e2, e3]
      rw [ih n r _ _ _ (by omega) hsb2 hr0 hra rfl rfl rfl
        (by rw [herr] at hinv; push_cast at hinv; ring_nf at hinv ⊢;
            rw [herr] at hx2; push_cast at hx2; ring_nf at hx2; linarith)]

/-- In the diagonal case `dx = dy ≥ 1` both axes step on every iteration
and the error stays `0`. -/
lemma bresRun_len_diag (a sx sy x1 y1 : ℤ) (ha : 1 ≤ a) (hsx : sx = 1 ∨ sx = -1) :
    ∀ (r fuel : ℕ) (x y : ℤ), r + 1 ≤ fuel →
      x = x1 - sx * (r : ℤ) → y = y1 - sy * (r : ℤ) →
      (bresRun x1 y1 a a sx sy fuel (x, y, 0)).length = r + 1 := by
  intro r
  induction r with
  | zero =>
    intro fuel x y hfuel hxe hye
    obtain ⟨m, rfl⟩ : ∃ m, fuel = m + 1 := ⟨fuel - 1, by omega⟩
    have hx1 : x = x1 := by rw [hxe]; simp
    have hy1 : y = y1 := by rw [hye]; simp
    rw [bresRun_succ, if_pos ⟨hx1, hy1⟩]
    rfl
  | succ r ih =>
    intro fuel x y hfuel hxe hye
    obtain ⟨n, rfl⟩ : ∃ n, fuel = n + 1 := ⟨fuel - 1, by omega⟩
    have hxne : x ≠ x1 := by
      rw [hxe]; push_cast; rcases hsx with h | h <;> subst h <;> omega
    rw [bresRun_succ, if_neg (fun hc => hxne hc.1)]
    subst hxe hye
    rw [bresStep_eq]
    simp only [mul_zero, if_pos (show -a < (0 : ℤ) by omega),
      if_pos (show (0 : ℤ) < a by omega)]
    have e1 : x1 - sx * ((r : ℕ) + 1 : ℕ) + sx = x1 - sx * (r : ℤ) := by
      push_cast; ring
    have e2 : y1 - sy * ((r : ℕ) + 1 : ℕ) + sy = y1 - sy * (r : ℤ) := by
      push_cast; ring
    have e3 : (0 : ℤ) - a + a = 0 := by ring
    rw [List.length_cons, e1, e2, e3]
    rw [ih n _ _ (by omega) rfl rfl]

/-- The visited-points list spelled out with the `let`s of `bresPoints`
inlined. -/
lemma bresPoints_def (x0 y0 x1 y1 : ℤ) :
    bresPoints x0 y0 x1 y1 =
      bresRun x1 y1 ((x1 - x0).natAbs : ℤ) ((y1 - y0).natAbs : ℤ)
        (if x0 < x1 then 1 else -1) (if y0 < y1 then 1 else -1)
        ((x1 - x0).natAbs + (y1 - y0).natAbs + 1)
        (x0, y0, ((x1 - x0).natAbs : ℤ) - ((y1 - y0).natAbs : ℤ)) := rfl

/-- The Bresenham walk of `draw_line` visits exactly
`max |x1 - x0| |y1 - y0| + 1` cells. -/
lemma bresPoints_length (x0 y0 x1 y1 : ℤ) :
    (bresPoints x0 y0 x1 y1).length
      = max (x1 - x0).natAbs (y1 - y0).natAbs + 1 := by
  rw [bresPoints_def]
  have hsx : (if x0 < x1 then (1 : ℤ) else -1) = 1 ∨
      (if x0 < x1 then (1 : ℤ) else -1) = -1 := by split <;> simp
  have hsy : (if y0 < y1 then (1 : ℤ) else -1) = 1 ∨
      (if y0 < y1 then (1 : ℤ) else -1) = -1 := by split <;> simp
  have hxe : x0 = x1 - (if x0 < x1 then (1 : ℤ) else -1) * ((x1 - x0).natAbs : ℤ) := by
    split <;> omega
  have hye : y0 = y1 - (if y0 < y1 then (1 : ℤ) else -1) * ((y1 - y0).natAbs : ℤ) := by
    split <;> omega
  rcases Nat.lt_trichotomy (y1 - y0).natAbs (x1 - x0).natAbs with hc | hc | hc
  · rw [Nat.max_eq_left (le_of_lt hc)]
    exact bresRun_len_domx _ _ _ _ _ _ (by positivity) (by exact_mod_cast hc) hsx
      (x1 - x0).natAbs _ ((y1 - y0).natAbs : ℤ) _ _ _ (by omega) (by omega)
      (by positivity) (le_refl _) hxe hye (by ring) (by omega)
  · rcases Nat.eq_zero_or_pos (x1 - x0).natAbs with h0 | h1
    · have hx1 : x0 = x1 := by omega
      have hy1 : y0 = y1 := by omega
      subst hx1; subst hy1
      simp only [sub_self, Int.natAbs_zero, Nat.cast_zero, Nat.max_self,
        Nat.add_zero, Nat.zero_add]
      rw [bresRun_succ x0 y0 0 0 _ _ 0 (x0, y0, 0)]
      simp
    · rw [hc] at hye ⊢
      rw [Nat.max_self, sub_self]
      exact bresRun_len_diag ((x1 - x0).natAbs : ℤ) _ _ x1 y1 (by exact_mod_cast h1) hsx
        (x1 - x0).natAbs _ x0 y0 (by omega) hxe hye
  · rw [Nat.max_eq_right (le_of_lt hc)]
    exact bresRun_len_domy _ _ _ _ _ _ (by positivity) (by exact_mod_cast hc) hsy
      (y1 - y0).natAbs _ ((x1 - x0).natAbs : ℤ) _ _ _ (by omega) (le_refl _)
      (by positivity) (le_refl _) hxe hye (by ring) (by omega)

/-- Consecutive points of the walk differ by `0` or `sx` in x and by `0`
or `sy` in y. -/
lemma bresRun_chain (x1 y1 dx dy sx sy : ℤ) :
    ∀ (fuel : ℕ) (st : ℤ × ℤ × ℤ),
      (bresRun x1 y1 dx dy sx sy fuel st).Chain'
        (fun p q => (q.1 = p.1 ∨ q.1 = p.1 + sx) ∧ (q.2 = p.2 ∨ q.2 = p.2 + sy)) := by
  intro fuel
  induction fuel with
  | zero => intro st; exact List.chain'_nil
  | succ n ih =>
    intro st
    rw [bresRun_succ]
    by_cases hstop : st.1 = x1 ∧ st.2.1 = y1
    · rw [if_pos hstop]; exact List.chain'_singleton _
    · rw [if_neg hstop]
      refine List.chain'_cons'.mpr ⟨?_, ih _⟩
      intro q hq
      have hq2 : q ∈ bresRun x1 y1 dx dy sx sy n (bresStep dx dy sx sy st) :=
        List.mem_of_mem_head? hq
      rcases st with ⟨x, y, err⟩
      obtain ⟨m, rfl⟩ : ∃ m, n = m + 1 := by
        rcases n with _ | m
        · simp [bresRun] at hq2
        · exact ⟨m, rfl⟩
      rw [bresStep_eq, bresRun_succ] at hq
      simp only [List.head?_cons, Option.mem_def, Option.some.injEq] at hq
      subst hq
      constructor
      · by_cases h1 : -dy < 2 * err
        · rw [if_pos h1]; right; rfl
        · rw [if_neg h1]; left; rfl
      · by_cases h2 : 2 * err < dx
        · rw [if_pos h2]; right; rfl
        · rw [if_neg h2]; left; rfl

/-- When `dx = 0` the error value stays `-dy` and x never moves. -/
lemma bresRun_const_x (b sx sy x1 y1 : ℤ) (hb : 0 ≤ b) :
    ∀ (fuel : ℕ) (x y : ℤ) (p : ℤ × ℤ),
      p ∈ bresRun x1 y1 0 b sx sy fuel (x, y, -b) → p.1 = x := by
  intro fuel
  induction fuel with
  | zero => intro x y p hp; simp [bresRun] at hp
  | succ n ih =>
    intro x y p hp
    rw [bresRun_succ] at hp
    rcases List.mem_cons.mp hp with hp | hp
    · rw [hp]
    · by_cases hstop : x = x1 ∧ y = y1
      · rw [if_pos hstop] at hp; simp at hp
      · rw [if_neg hstop, bresStep_eq] at hp
        simp only [if_neg (show ¬(-b < 2 * -b) by omega)] at hp
        by_cases h2 : 2 * -b < (0 : ℤ)
        · simp only [if_pos h2, add_zero] at hp
          exact ih x (y + sy) p hp
        · simp only [if_neg h2] at hp
          exact ih x y p hp

/-- When `dy = 0` the error value stays `dx` and y never moves. -/
lemma bresRun_const_y (a sx sy x1 y1 : ℤ) (ha : 0 ≤ a) :
    ∀ (fuel : ℕ) (x y : ℤ) (p : ℤ × ℤ),
      p ∈ bresRun x1 y1 a 0 sx sy fuel (x, y, a) → p.2 = y := by
  intro fuel
  induction fuel with
  | zero => intro x y p hp; simp [bresRun] at hp
  | succ n ih =>
    intro x y p hp
    rw [bresRun_succ] at hp
    rcases List.mem_cons.mp hp with hp | hp
    · rw [hp]
    · by_cases hstop : x = x1 ∧ y = y1
      · rw [if_pos hstop] at hp; simp at hp
      · rw [if_neg hstop, bresStep_eq] at hp
        simp only [if_neg (show ¬(2 * a < a) by omega)] at hp
        by_cases h1 : -(0 : ℤ) < 2 * a
        · simp only [if_pos h1, sub_zero] at hp
          exact ih (x + sx) y p hp
        · simp only [if_neg h1] at hp
          exact ih x y p hp

/-- A list all of whose elements satisfy `Q` is a chain for any relation
that holds between any two `Q`-elements. -/
lemma chain_of_all {α : Type} {P : α → α → Prop} {Q : α → Prop}
    (h : ∀ u v, Q u → Q v → P u v) :
    ∀ l : List α, (∀ u ∈ l, Q u) → l.Chain' P := by
  intro l
  induction l with
  | nil => intro _; exact List.chain'_nil
  | cons u l ih =>
    intro hl
    refine List.chain'_cons'.mpr ⟨?_, ih fun v hv => hl v (List.mem_cons_of_mem _ hv)⟩
    intro v hv
    exact h u v (hl u (List.mem_cons_self _ _))
      (hl v (List.mem_cons_of_mem _ (List.mem_of_mem_head? hv)))

/-- C2: `draw_line` rasterizes between any two integer endpoints by an
integer Bresenham-style walk that terminates after `max |dx| |dy|` steps,
visiting exactly `max |dx| |dy| + 1` cells; from `(0,0)` to `(5,0)` it
visits exactly the six cells `(0,0)` … `(5,0)`; from `(0,0)` to `(3,4)` it
visits exactly `5` cells; and the visited cells are monotonically
non-decreasing in each axis according to the sign of that axis's delta. -/
theorem draw_line_bresenham :
    (∀ x0 y0 x1 y1 : ℤ,
        (bresPoints x0 y0 x1 y1).length
          = max (x1 - x0).natAbs (y1 - y0).natAbs + 1) ∧
    bresPoints 0 0 5 0 = [(0, 0), (1, 0), (2, 0), (3, 0), (4, 0), (5, 0)] ∧
    (bresPoints 0 0 3 4).length = 5 ∧
    (∀ x0 y0 x1 y1 : ℤ,
        (x0 ≤ x1 → (bresPoints x0 y0 x1 y1).Chain' fun p q => p.1 ≤ q.1) ∧
        (x1 ≤ x0 → (bresPoints x0 y0 x1 y1).Chain' fun p q => q.1 ≤ p.1) ∧
        (y0 ≤ y1 → (bresPoints x0 y0 x1 y1).Chain' fun p q => p.2 ≤ q.2) ∧
        (y1 ≤ y0 → (bresPoints x0 y0 x1 y1).Chain' fun p q => q.2 ≤ p.2)) := by
  refine ⟨bresPoints_length, by decide, by decide, ?_⟩
  intro x0 y0 x1 y1
  refine ⟨fun hx => ?_, fun hx => ?_, fun hy => ?_, fun hy => ?_⟩
  · rcases eq_or_lt_of_le hx with heq | hlt
    · subst heq
      rw [bresPoints_def]
      simp only [sub_self, Int.natAbs_zero, Nat.cast_zero, zero_sub, Nat.zero_add]
      exact chain_of_all (fun u v hu hv => by rw [hu, hv]) _
        (bresRun_const_x _ _ _ _ _ (by positivity) _ _ _)
    · rw [bresPoints_def, if_pos hlt]
      exact (bresRun_chain _ _ _ _ _ _ _ _).imp fun p q h => by
        rcases h.1 with h1 | h1 <;> omega
  · rcases eq_or_lt_of_le hx with heq | hlt
    · subst heq
      rw [bresPoints_def]
      simp only [sub_self, Int.natAbs_zero, Nat.cast_zero, zero_sub, Nat.zero_add]
      exact chain_of_all (fun u v hu hv => by rw [hu, hv]) _
        (bresRun_const_x _ _ _ _ _ (by positivity) _ _ _)
    · rw [bresPoints_def, if_neg (not_lt.mpr hx)]
      exact (bresRun_chain _ _ _ _ _ _ _ _).imp fun p q h => by
        rcases h.1 with h1 | h1 <;> omega
  · rcases eq_or_lt_of_le hy with heq | hlt
    · subst heq
      rw [bresPoints_def]
      simp only [sub_self, Int.natAbs_zero, Nat.cast_zero, sub_zero, Nat.add_zero]
      exact chain_of_all (fun u v hu hv => by rw [hu, hv]) _
        (bresRun_const_y _ _ _ _ _ (by positivity) _ _ _)
    · rw [bresPoints_def, if_pos hlt]
      exact (bresRun_chain _ _ _ _ _ _ _ _).imp fun p q h => by
        rcases h.2 with h2 | h2 <;> omega
  · rcases eq_or_lt_of_le hy with heq | hlt
    · subst heq
      rw [bresPoints_def]
      simp only [sub_self, Int.natAbs_zero, Nat.cast_zero, sub_zero, Nat.add_zero]
      exact chain_of_all (fun u v hu hv => by rw [hu, hv]) _
        (bresRun_const_y _ _ _ _ _ (by positivity) _ _ _)
    · rw [bresPoints_def, if_neg (not_lt.mpr hy)]
      exact (bresRun_chain _ _ _ _ _ _ _ _).imp fun p q h => by
        rcases h.2 with h2 | h2 <;> omega

/-- Witness for C2 at concrete inputs: the horizontal example is monotone
in x and the general cell count applies to `(0,0)`–`(3,4)`. -/
theorem draw_line_bresenham_witness :
    ((bresPoints 0 0 5 0).Chain' fun p q => p.1 ≤ q.1) ∧
      (bresPoints 0 0 3 4).length
        = max ((3 : ℤ) - 0).natAbs ((4 : ℤ) - 0).natAbs + 1 :=
  ⟨(draw_line_bresenham.2.2.2 0 0 5 0).1 (by decide),
   draw_line_bresenham.1 0 0 3 4⟩

/-! ### Painting: depth-test lemmas -/

/-- A wrapped cell that passes the guard is inside the buffers. -/
lemma wrapCell_bounds (p : ℤ × ℤ) (c : ℕ × ℕ) (h : wrapCell p = some c) :
    c.1 < HEIGHT ∧ c.2 < WIDTH := by
  simp only [wrapCell, WIDTH, HEIGHT] at h
  split at h
  · rename_i hcond
    obtain ⟨h1, h2, h3, h4⟩ := hcond
    cases h
    simp only [WIDTH, HEIGHT]
    omega
  · exact absurd h (by simp)

/-- One paint step either leaves a given cell unchanged or paints it: in
the latter case the depth test held, the cell now holds `z` and the glyph,
and the cell is inside the buffers. -/
lemma paintCell_cases (z : ℚ) (g : Char) (sd : Screen × Depth) (p : ℤ × ℤ) (iy ix : ℕ) :
    ((paintCell z g sd p).1 iy ix = sd.1 iy ix ∧
      (paintCell z g sd p).2 iy ix = sd.2 iy ix) ∨
    (sd.2 iy ix < z ∧ (paintCell z g sd p).2 iy ix = z ∧
      (paintCell z g sd p).1 iy ix = g ∧ iy < HEIGHT ∧ ix < WIDTH) := by
  rcases hw : wrapCell p with _ | c
  · simp only [paintCell, hw]
    left; exact ⟨trivial, trivial⟩
  · simp only [paintCell, hw]
    by_cases hd : sd.2 c.1 c.2 < z
    · rw [if_pos hd]
      by_cases hc : iy = c.1 ∧ ix = c.2
      · right
        obtain ⟨h1, h2⟩ := hc
        subst h1; subst h2
        have hb := wrapCell_bounds p _ hw
        exact ⟨hd, by simp, by simp, hb.1, hb.2⟩
      · left
        constructor <;> simp only [if_neg hc]
    · rw [if_neg hd]; left; exact ⟨rfl, rfl⟩

/-- Folding the paint step over any point list: each cell is either left
unchanged or holds `(glyph, z)` after a successful depth test against its
value at the start of the call, and painted cells are inside the buffers. -/
lemma paintCells_cases (z : ℚ) (g : Char) (ps : List (ℤ × ℤ)) :
    ∀ (sd : Screen × Depth) (iy ix : ℕ),
      ((paintCells z g sd ps).1 iy ix = sd.1 iy ix ∧
        (paintCells z g sd ps).2 iy ix = sd.2 iy ix) ∨
      (sd.2 iy ix < z ∧ (paintCells z g sd ps).2 iy ix = z ∧
        (paintCells z g sd ps).1 iy ix = g ∧ iy < HEIGHT ∧ ix < WIDTH) := by
  induction ps with
  | nil => intro sd iy ix; left; exact ⟨rfl, rfl⟩
  | cons p rest ih =>
    intro sd iy ix
    have hfold : paintCells z g sd (p :: rest)
        = paintCells z g (paintCell z g sd p) rest := rfl
    rw [hfold]
    rcases paintCell_cases z g sd p iy ix with ⟨ha1, ha2⟩ | ⟨ha1, ha2, ha3, ha4, ha5⟩
    · rcases ih (paintCell z g sd p) iy ix with ⟨hb1, hb2⟩ | ⟨hb1, hb2, hb3, hb4, hb5⟩
      · left; rw [hb1, hb2, ha1, ha2]; exact ⟨rfl, rfl⟩
      · right; rw [ha2] at hb1; exact ⟨hb1, hb2, hb3, hb4, hb5⟩
    · rcases ih (paintCell z g sd p) iy ix with ⟨hb1, hb2⟩ | ⟨hb1, hb2, hb3, hb4, hb5⟩
      · right; rw [hb1, hb2, ha2, ha3]; exact ⟨ha1, rfl, rfl, ha4, ha5⟩
      · rw [ha2] at hb1; exact absurd hb1 (lt_irrefl z)

/-- A paint step at a point that does not wrap to the given cell leaves
that cell unchanged. -/
lemma paintCell_other (z : ℚ) (g : Char) (sd : Screen × Depth) (p : ℤ × ℤ) (iy ix : ℕ)
    (hp : wrapCell p ≠ some (iy, ix)) :
    (paintCell z g sd p).1 iy ix = sd.1 iy ix ∧
      (paintCell z g sd p).2 iy ix = sd.2 iy ix := by
  rcases hw : wrapCell p with _ | c
  · simp only [paintCell, hw]
    exact ⟨trivial, trivial⟩
  · have hc : ¬(iy = c.1 ∧ ix = c.2) := by
      rintro ⟨h1, h2⟩
      exact hp (by rw [hw, h1, h2])
    simp only [paintCell, hw]
    by_cases hd : sd.2 c.1 c.2 < z
    · rw [if_pos hd]; constructor <;> simp only [if_neg hc]
    · rw [if_neg hd]; exact ⟨rfl, rfl⟩

/-- A cell some visited point wraps to, whose stored depth is below `z`,
ends the call holding the glyph and depth `z`. -/
lemma paintCells_mem (z : ℚ) (g : Char) (ps : List (ℤ × ℤ)) :
    ∀ (sd : Screen × Depth) (iy ix : ℕ),
      some (iy, ix) ∈ ps.map wrapCell → sd.2 iy ix < z →
      (paintCells z g sd ps).1 iy ix = g ∧ (paintCells z g sd ps).2 iy ix = z := by
  induction ps with
  | nil => intro sd iy ix hmem _; simp at hmem
  | cons p rest ih =>
    intro sd iy ix hmem hz
    have hfold : paintCells z g sd (p :: rest)
        = paintCells z g (paintCell z g sd p) rest := rfl
    rw [hfold]
    by_cases hp : wrapCell p = some (iy, ix)
    · have h1 : (paintCell z g sd p).1 iy ix = g ∧ (paintCell z g sd p).2 iy ix = z := by
        simp only [paintCell, hp]
        rw [if_pos hz]
        constructor <;> simp
      rcases paintCells_cases z g rest (paintCell z g sd p) iy ix with
        ⟨ha, hb⟩ | ⟨ha, hb, hc, h4, h5⟩
      · rw [ha, hb, h1.1, h1.2]; exact ⟨rfl, rfl⟩
      · rw [h1.2] at ha; exact absurd ha (lt_irrefl z)
    · have hrest : some (iy, ix) ∈ rest.map wrapCell := by
        rw [List.map_cons] at hmem
        rcases List.mem_cons.mp hmem with h | h
        · exact absurd h.symm hp
        · exact h
      have ho := paintCell_other z g sd p iy ix hp
      exact ih (paintCell z g sd p) iy ix hrest (by rw [ho.2]; exact hz)

/-- `draw_line` unfolded under a successful glyph lookup. -/
lemma draw_line_eq (screen : Screen) (depth : Depth) (x0 y0 x1 y1 : ℤ) (z i : ℚ)
    (g : Char) (hg : chosenGlyph i = some g) :
    draw_line screen depth x0 y0 x1 y1 z i =
      some ((paintCells z g (screen, depth) (bresPoints x0 y0 x1 y1)).1,
            (paintCells z g (screen, depth) (bresPoints x0 y0 x1 y1)).2) := by
  rw [draw_line, hg]
  rfl

/-! ### Concrete values used by the witnesses -/

lemma charIdx_one : charIdx 1 = 11 := by
  unfold charIdx rampChars
  norm_num
  rfl

lemma chosenGlyph_one : chosenGlyph 1 = some '@' := by
  rw [chosenGlyph, charIdx_one]
  rfl

lemma charIdx_ninetenths : charIdx (9 / 10) = 9 := by
  unfold charIdx rampChars
  norm_num
  rfl

lemma chosenGlyph_ninetenths : chosenGlyph (9 / 10) = some '#' := by
  rw [chosenGlyph, charIdx_ninetenths]
  rfl

lemma F32MIN_lt_zero : F32MIN < 0 := by norm_num [F32MIN]

lemma F32MIN_lt_one : F32MIN < 1 := by norm_num [F32MIN]

lemma one_le_F32MAX : (1 : ℚ) ≤ F32MAX := by norm_num [F32MAX]

lemma bresPoints_single (x y : ℤ) : bresPoints x y x y = [(x, y)] := by
  rw [bresPoints_def]
  simp only [sub_self, Int.natAbs_zero, Nat.cast_zero, Nat.zero_add, Nat.add_zero]
  rw [bresRun_succ x y 0 0 _ _ 0 (x, y, 0)]
  simp

/-! ### C1 and C10: the depth test and buffer safety -/

/-- C1: in every `draw_line` call a cell is painted only when the passed
`z` strictly exceeds the depth stored there, and on success the depth cell
becomes `z` and the frame cell becomes the chosen glyph; consequently a
call whose `z` is at most the stored depth at a cell leaves both buffers
unchanged at that cell (in particular at every visited cell). -/
theorem draw_line_depth_test (screen : Screen) (depth : Depth) (x0 y0 x1 y1 : ℤ)
    (z intensity : ℚ) (s2 : Screen) (d2 : Depth)
    (h : draw_line screen depth x0 y0 x1 y1 z intensity = some (s2, d2)) :
    (∀ iy ix : ℕ, z ≤ depth iy ix → s2 iy ix = screen iy ix ∧ d2 iy ix = depth iy ix) ∧
    (∀ iy ix : ℕ, s2 iy ix ≠ screen iy ix ∨ d2 iy ix ≠ depth iy ix →
      depth iy ix < z ∧ d2 iy ix = z ∧
        ∃ g, chosenGlyph intensity = some g ∧ s2 iy ix = g) := by
  rcases hg : chosenGlyph intensity with _ | g
  · rw [draw_line, hg] at h; exact absurd h (by simp)
  · rw [draw_line_eq screen depth x0 y0 x1 y1 z intensity g hg] at h
    have hs2 : s2 = (paintCells z g (screen, depth) (bresPoints x0 y0 x1 y1)).1 := by
      have := (Option.some.injEq _ _).mp h
      exact (congrArg Prod.fst this).symm
    have hd2 : d2 = (paintCells z g (screen, depth) (bresPoints x0 y0 x1 y1)).2 := by
      have := (Option.some.injEq _ _).mp h
      exact (congrArg Prod.snd this).symm
    subst hs2; subst hd2
    constructor
    · intro iy ix hle
      rcases paintCells_cases z g (bresPoints x0 y0 x1 y1) (screen, depth) iy ix with
        ⟨h1, h2⟩ | ⟨h1, h2, h3, h4, h5⟩
      · exact ⟨h1, h2⟩
      · exact absurd h1 (not_lt.mpr hle)
    · intro iy ix hne
      rcases paintCells_cases z g (bresPoints x0 y0 x1 y1) (screen, depth) iy ix with
        ⟨h1, h2⟩ | ⟨h1, h2, h3, h4, h5⟩
      · rcases hne with hne | hne
        · exact absurd h1 hne
        · exact absurd h2 hne
      · exact ⟨h1, h2, g, rfl, h3⟩

/-- Witness for C1: a call with `z = f32::MIN` over fresh buffers repaints
nothing, checked at cell `(3, 5)`. -/
theorem draw_line_depth_test_witness :
    (paintCells F32MIN '@' (blankScreen, freshDepth) (bresPoints 0 0 0 0)).1 3 5
      = blankScreen 3 5 :=
  ((draw_line_depth_test blankScreen freshDepth 0 0 0 0 F32MIN 1 _ _
    (draw_line_eq blankScreen freshDepth 0 0 0 0 F32MIN 1 '@' chosenGlyph_one)).1
      3 5 (le_refl _)).1

/-- C10: the wrapped coordinate passes a bounds check before any buffer
access, so every painted cell lies inside `0..WIDTH` and `0..HEIGHT`;
points whose wrapped coordinate fails the guard are silently skipped; and
within a single call every stored depth is non-decreasing, a glyph
changing only when the stored depth strictly increases. -/
theorem draw_line_safety (screen : Screen) (depth : Depth) (x0 y0 x1 y1 : ℤ)
    (z intensity : ℚ) (s2 : Screen) (d2 : Depth)
    (h : draw_line screen depth x0 y0 x1 y1 z intensity = some (s2, d2)) :
    (∀ (p : ℤ × ℤ) (c : ℕ × ℕ), wrapCell p = some c → c.1 < HEIGHT ∧ c.2 < WIDTH) ∧
    (∀ iy ix : ℕ, s2 iy ix ≠ screen iy ix ∨ d2 iy ix ≠ depth iy ix →
      iy < HEIGHT ∧ ix < WIDTH) ∧
    (∀ (zq : ℚ) (gq : Char) (sd : Screen × Depth) (p : ℤ × ℤ),
      wrapCell p = none → paintCell zq gq sd p = sd) ∧
    (∀ iy ix : ℕ, depth iy ix ≤ d2 iy ix) ∧
    (∀ iy ix : ℕ, s2 iy ix ≠ screen iy ix → depth iy ix < d2 iy ix) := by
  rcases hg : chosenGlyph intensity with _ | g
  · rw [draw_line, hg] at h; exact absurd h (by simp)
  · rw [draw_line_eq screen depth x0 y0 x1 y1 z intensity g hg] at h
    have hs2 : s2 = (paintCells z g (screen, depth) (bresPoints x0 y0 x1 y1)).1 := by
      have := (Option.some.injEq _ _).mp h
      exact (congrArg Prod.fst this).symm
    have hd2 : d2 = (paintCells z g (screen, depth) (bresPoints x0 y0 x1 y1)).2 := by
      have := (Option.some.injEq _ _).mp h
      exact (congrArg Prod.snd this).symm
    subst hs2; subst hd2
    refine ⟨wrapCell_bounds, ?_, ?_, ?_, ?_⟩
    · intro iy ix hne
      rcases paintCells_cases z g (bresPoints x0 y0 x1 y1) (screen, depth) iy ix with
        ⟨h1, h2⟩ | ⟨h1, h2, h3, h4, h5⟩
      · rcases hne with hne | hne
        · exact absurd h1 hne
        · exact absurd h2 hne
      · exact ⟨h4, h5⟩
    · intro zq gq sd p hp
      unfold paintCell
      rw [hp]
    · intro iy ix
      rcases paintCells_cases z g (bresPoints x0 y0 x1 y1) (screen, depth) iy ix with
        ⟨h1, h2⟩ | ⟨h1, h2, h3, h4, h5⟩
      · rw [h2]
      · rw [h2]; exact le_of_lt h1
    · intro iy ix hne
      rcases paintCells_cases z g (bresPoints x0 y0 x1 y1) (screen, depth) iy ix with
        ⟨h1, h2⟩ | ⟨h1, h2, h3, h4, h5⟩
      · exact absurd h1 hne
      · rw [h2]; exact h1

/-- Witness for C10: the depth at cell `(0, 0)` does not decrease across a
concrete `draw_line` call over fresh buffers. -/
theorem draw_line_safety_witness :
    freshDepth 0 0
      ≤ (paintCells 1 '@' (blankScreen, freshDepth) (bresPoints 0 0 0 0)).2 0 0 :=
  (draw_line_safety blankScreen freshDepth 0 0 0 0 1 1 _ _
    (draw_line_eq blankScreen freshDepth 0 0 0 0 1 1 '@' chosenGlyph_one)).2.2.2.1 0 0

/-! ### C4: wraparound behaviour of the coordinate wrap -/

/-- For coordinates at least `-WIDTH` / `-HEIGHT` the wrap-and-guard
succeeds and lands on the (euclidean) modulo cell. -/
lemma wrapCell_mod (x y : ℤ) (hx : -(WIDTH : ℤ) ≤ x) (hy : -(HEIGHT : ℤ) ≤ y) :
    wrapCell (x, y) = some ((y % (HEIGHT : ℤ)).toNat, (x % (WIDTH : ℤ)).toNat) := by
  have hW : (0 : ℤ) < (WIDTH : ℤ) := by norm_num [WIDTH]
  have hH : (0 : ℤ) < (HEIGHT : ℤ) := by norm_num [HEIGHT]
  have hwx : Int.tmod (x + (WIDTH : ℤ)) (WIDTH : ℤ) = x % (WIDTH : ℤ) := by
    rw [Int.tmod_eq_emod (by omega) (le_of_lt hW)]
    rw [show x + (WIDTH : ℤ) = x + (WIDTH : ℤ) * 1 by ring, Int.add_mul_emod_self_left]
  have hwy : Int.tmod (y + (HEIGHT : ℤ)) (HEIGHT : ℤ) = y % (HEIGHT : ℤ) := by
    rw [Int.tmod_eq_emod (by omega) (le_of_lt hH)]
    rw [show y + (HEIGHT : ℤ) = y + (HEIGHT : ℤ) * 1 by ring, Int.add_mul_emod_self_left]
  simp only [wrapCell, hwx, hwy]
  rw [if_pos ⟨Int.emod_nonneg x (by omega), Int.emod_lt_of_pos x hW,
    Int.emod_nonneg y (by omega), Int.emod_lt_of_pos y hH⟩]

/-- In-range coordinates wrap to themselves. -/
lemma wrapCell_inrange (x y : ℤ) (hx0 : 0 ≤ x) (hx : x < (WIDTH : ℤ))
    (hy0 : 0 ≤ y) (hy : y < (HEIGHT : ℤ)) :
    wrapCell (x, y) = some (y.toNat, x.toNat) := by
  rw [wrapCell_mod x y (by omega) (by omega),
    Int.emod_eq_of_lt hx0 hx, Int.emod_eq_of_lt hy0 hy]

/-- A point whose truncated x-remainder is negative fails the guard and is
skipped. -/
lemma wrapCell_skip_x (x y : ℤ) (h : Int.tmod (x + (WIDTH : ℤ)) (WIDTH : ℤ) < 0) :
    wrapCell (x, y) = none := by
  simp only [wrapCell]
  rw [if_neg]
  rintro ⟨h1, -, -, -⟩
  omega

/-- A point whose truncated y-remainder is negative fails the guard and is
skipped. -/
lemma wrapCell_skip_y (x y : ℤ) (h : Int.tmod (y + (HEIGHT : ℤ)) (HEIGHT : ℤ) < 0) :
    wrapCell (x, y) = none := by
  simp only [wrapCell]
  rw [if_neg]
  rintro ⟨-, -, h3, -⟩
  omega

/-- The value a guarded-and-passing paint step leaves at its own cell. -/
lemma paintCell_hit (z : ℚ) (g : Char) (sd : Screen × Depth) (p : ℤ × ℤ) (c : ℕ × ℕ)
    (hw : wrapCell p = some c) (hz : sd.2 c.1 c.2 < z) :
    (paintCell z g sd p).1 c.1 c.2 = g ∧ (paintCell z g sd p).2 c.1 c.2 = z := by
  simp only [paintCell, hw]
  rw [if_pos hz]
  constructor <;> simp

/-- Counterexample to C4 as stated: the point `(-161, 0)` is more negative
than `-WIDTH`; mathematically `-161 ≡ 159 (mod 160)`, so toroidal
wraparound would paint column `159`, but the code's truncated remainder is
`-1`, the guard fails, and the point is skipped: over fresh buffers the
cell `(row 0, column 159)` still holds the blank and the sentinel rather
than the chosen glyph `'@'`. -/
theorem wraparound_counterexample :
    (-161 : ℤ) % (WIDTH : ℤ) = 159 ∧
    wrapCell (-161, 0) = none ∧
    (draw_line blankScreen freshDepth (-161) 0 (-161) 0 0 1).map
        (fun sd => (sd.1 0 159, sd.2 0 159)) = some (' ', F32MIN) ∧
    (' ' : Char) ≠ '@' := by
  refine ⟨by decide, by decide, ?_, by decide⟩
  rw [draw_line_eq blankScreen freshDepth (-161) 0 (-161) 0 0 1 '@' chosenGlyph_one]
  rw [Option.map_some']
  have hskip : wrapCell (-161, 0) = none := by decide
  have h1 : paintCells 0 '@' (blankScreen, freshDepth) (bresPoints (-161) 0 (-161) 0)
      = (blankScreen, freshDepth) := by
    rw [bresPoints_single]
    show paintCell 0 '@' (blankScreen, freshDepth) (-161, 0) = (blankScreen, freshDepth)
    unfold paintCell
    rw [hskip]
  rw [h1]
  rfl

/-- C4 amended: both coordinates are wrapped by modulo arithmetic into the
valid range — toroidal wraparound — for every visited point whose
coordinates are at least `-WIDTH` and `-HEIGHT` (in particular `x = WIDTH`
maps to column `0`, and `x = -1` maps to column `WIDTH - 1`); a passing
cell with depth below `z` is then painted; but a point with a coordinate
below `-WIDTH` / `-HEIGHT` whose truncated remainder is negative fails the
guard and is silently skipped instead of being wrapped. -/
theorem wraparound_amended :
    (∀ x y : ℤ, -(WIDTH : ℤ) ≤ x → -(HEIGHT : ℤ) ≤ y →
      wrapCell (x, y) = some ((y % (HEIGHT : ℤ)).toNat, (x % (WIDTH : ℤ)).toNat)) ∧
    wrapCell ((WIDTH : ℤ), 0) = some (0, 0) ∧
    wrapCell (-1, 0) = some (0, 159) ∧
    (∀ x y : ℤ, Int.tmod (x + (WIDTH : ℤ)) (WIDTH : ℤ) < 0 → wrapCell (x, y) = none) ∧
    (∀ x y : ℤ, Int.tmod (y + (HEIGHT : ℤ)) (HEIGHT : ℤ) < 0 → wrapCell (x, y) = none) ∧
    (∀ (z : ℚ) (g : Char) (sd : Screen × Depth) (p : ℤ × ℤ) (c : ℕ × ℕ),
      wrapCell p = some c → sd.2 c.1 c.2 < z →
      (paintCell z g sd p).1 c.1 c.2 = g ∧ (paintCell z g sd p).2 c.1 c.2 = z) :=
  ⟨wrapCell_mod, by decide, by decide, wrapCell_skip_x, wrapCell_skip_y, paintCell_hit⟩

/-- Witness for C4 amended: one past the last column wraps to column `0`. -/
theorem wraparound_amended_witness :
    wrapCell ((WIDTH : ℤ), 5) = some (((5 : ℤ) % (HEIGHT : ℤ)).toNat,
      (((WIDTH : ℤ)) % (WIDTH : ℤ)).toNat) :=
  wraparound_amended.1 (WIDTH : ℤ) 5 (by decide) (by decide)

/-! ### C5 and C6: draw ordering and the fresh depth buffer -/

/-- The paint step at a cell it wraps to, with a passing depth test. -/
lemma paintCell_hit2 (z : ℚ) (g : Char) (sd : Screen × Depth) (p : ℤ × ℤ) (iy ix : ℕ)
    (hw : wrapCell p = some (iy, ix)) (hz : sd.2 iy ix < z) :
    (paintCell z g sd p).1 iy ix = g ∧ (paintCell z g sd p).2 iy ix = z :=
  paintCell_hit z g sd p (iy, ix) hw hz

/-- The paint step at a cell it wraps to, with a failing depth test, is the
identity. -/
lemma paintCell_nohit (z : ℚ) (g : Char) (sd : Screen × Depth) (p : ℤ × ℤ) (iy ix : ℕ)
    (hw : wrapCell p = some (iy, ix)) (hz : ¬sd.2 iy ix < z) :
    paintCell z g sd p = sd := by
  simp only [paintCell, hw]
  exact if_neg hz

/-- A single-point `draw_line` call is one paint step. -/
lemma draw_line_point (screen : Screen) (depth : Depth) (x y : ℤ) (z i : ℚ) (g : Char)
    (hg : chosenGlyph i = some g) :
    draw_line screen depth x y x y z i =
      some ((paintCell z g (screen, depth) (x, y)).1,
            (paintCell z g (screen, depth) (x, y)).2) := by
  rw [draw_line_eq screen depth x y x y z i g hg, bresPoints_single]
  rfl

/-- Counterexample to C5 as stated: two successive single-point draws at
cell `(row 4, col 3)` with *equal* depth `1`, the first with glyph `'@'`,
the second with glyph `'#'`.  The strict depth test rejects the second
draw, so the glyph retained is the *first* one, `'@'`, not the glyph of
whatever was drawn last. -/
theorem tie_break_counterexample :
    ((draw_line blankScreen freshDepth 3 4 3 4 1 1).bind
        (fun sd => draw_line sd.1 sd.2 3 4 3 4 1 (9 / 10))).map
      (fun sd => sd.1 4 3) = some '@' ∧ ('@' : Char) ≠ '#' := by
  refine ⟨?_, by decide⟩
  rw [draw_line_point blankScreen freshDepth 3 4 1 1 '@' chosenGlyph_one,
    Option.some_bind]
  have hw : wrapCell (3, 4) = some (4, 3) := by decide
  have hp1 := paintCell_hit2 1 '@' (blankScreen, freshDepth) (3, 4) 4 3 hw F32MIN_lt_one
  show Option.map _ (draw_line (paintCell 1 '@' (blankScreen, freshDepth) (3, 4)).1
    (paintCell 1 '@' (blankScreen, freshDepth) (3, 4)).2 3 4 3 4 1 (9 / 10)) = _
  rw [draw_line_point _ _ 3 4 1 (9 / 10) '#' chosenGlyph_ninetenths, Option.map_some']
  have hno : ¬((paintCell 1 '@' (blankScreen, freshDepth) (3, 4)).1,
      (paintCell 1 '@' (blankScreen, freshDepth) (3, 4)).2).2 4 3 < 1 := by
    dsimp only
    rw [hp1.2]
    exact lt_irrefl 1
  rw [paintCell_nohit 1 '#' _ (3, 4) 4 3 hw hno]
  dsimp only
  rw [hp1.1]

/-- C5 amended: when two draws touch the same cell, for unequal depths the
strictly nearer (larger-`z`) draw's glyph is retained regardless of order;
for equal depths the strict depth test rejects the later draw, so the
glyph of whatever was drawn *first* at that cell is retained. -/
theorem depth_order_amended (screen : Screen) (depth : Depth) (x y : ℤ)
    (z1 z2 i1 i2 : ℚ) (g1 g2 : Char) (s1 : Screen) (d1 : Depth) (s2 : Screen)
    (d2 : Depth) (hx0 : 0 ≤ x) (hx : x < (WIDTH : ℤ)) (hy0 : 0 ≤ y)
    (hy : y < (HEIGHT : ℤ)) (hg1 : chosenGlyph i1 = some g1)
    (hg2 : chosenGlyph i2 = some g2) (hz1 : depth y.toNat x.toNat < z1)
    (hz2 : depth y.toNat x.toNat < z2)
    (h1 : draw_line screen depth x y x y z1 i1 = some (s1, d1))
    (h2 : draw_line s1 d1 x y x y z2 i2 = some (s2, d2)) :
    (z1 = z2 → s2 y.toNat x.toNat = g1) ∧
    (z1 < z2 → s2 y.toNat x.toNat = g2) ∧
    (z2 < z1 → s2 y.toNat x.toNat = g1) := by
  have hw : wrapCell (x, y) = some (y.toNat, x.toNat) :=
    wrapCell_inrange x y hx0 hx hy0 hy
  rw [draw_line_point screen depth x y z1 i1 g1 hg1] at h1
  have hpair1 := (Option.some.injEq _ _).mp h1
  have hs1 : s1 = (paintCell z1 g1 (screen, depth) (x, y)).1 :=
    (congrArg Prod.fst hpair1).symm
  have hd1 : d1 = (paintCell z1 g1 (screen, depth) (x, y)).2 :=
    (congrArg Prod.snd hpair1).symm
  subst hs1; subst hd1
  have hp1 := paintCell_hit2 z1 g1 (screen, depth) (x, y) y.toNat x.toNat hw hz1
  rw [draw_line_point _ _ x y z2 i2 g2 hg2] at h2
  have hpair2 := (Option.some.injEq _ _).mp h2
  have hs2 : s2 = (paintCell z2 g2 ((paintCell z1 g1 (screen, depth) (x, y)).1,
      (paintCell z1 g1 (screen, depth) (x, y)).2) (x, y)).1 :=
    (congrArg Prod.fst hpair2).symm
  subst hs2
  refine ⟨?_, ?_, ?_⟩
  · intro hz
    subst hz
    have hno : ¬((paintCell z1 g1 (screen, depth) (x, y)).1,
        (paintCell z1 g1 (screen, depth) (x, y)).2).2 y.toNat x.toNat < z1 := by
      dsimp only
      rw [hp1.2]
      exact lt_irrefl z1
    rw [paintCell_nohit z1 g2 _ (x, y) y.toNat x.toNat hw hno]
    dsimp only
    exact hp1.1
  · intro hlt
    have hyes : ((paintCell z1 g1 (screen, depth) (x, y)).1,
        (paintCell z1 g1 (screen, depth) (x, y)).2).2 y.toNat x.toNat < z2 := by
      dsimp only
      rw [hp1.2]
      exact hlt
    exact (paintCell_hit2 z2 g2 _ (x, y) y.toNat x.toNat hw hyes).1
  · intro hlt
    have hno : ¬((paintCell z1 g1 (screen, depth) (x, y)).1,
        (paintCell z1 g1 (screen, depth) (x, y)).2).2 y.toNat x.toNat < z2 := by
      dsimp only
      rw [hp1.2]
      exact not_lt.mpr (le_of_lt hlt)
    rw [paintCell_nohit z2 g2 _ (x, y) y.toNat x.toNat hw hno]
    dsimp only
    exact hp1.1

/-- Witness for C5 amended: two equal-depth single-point draws at
`(row 4, col 3)` retain the first glyph. -/
theorem depth_order_amended_witness :
    (paintCell 1 '#' ((paintCell 1 '@' (blankScreen, freshDepth) (3, 4)).1,
        (paintCell 1 '@' (blankScreen, freshDepth) (3, 4)).2) (3, 4)).1 4 3 = '@' :=
  (depth_order_amended blankScreen freshDepth 3 4 1 1 1 (9 / 10) '@' '#' _ _ _ _
    (by decide) (by decide) (by decide) (by decide) chosenGlyph_one
    chosenGlyph_ninetenths F32MIN_lt_one F32MIN_lt_one
    (draw_line_point blankScreen freshDepth 3 4 1 1 '@' chosenGlyph_one)
    (draw_line_point _ _ 3 4 1 (9 / 10) '#' chosenGlyph_ninetenths)).1 rfl

/-- Counterexample to C6 as stated: `z = f32::MIN` is a finite value, yet
the first draw over a fresh depth buffer fails its depth test
(`z > f32::MIN` is false), so the cell keeps the blank and the sentinel
instead of receiving the chosen glyph `'@'`. -/
theorem fresh_depth_counterexample :
    |F32MIN| ≤ F32MAX ∧
    (draw_line blankScreen freshDepth 0 0 0 0 F32MIN 1).map
        (fun sd => (sd.1 0 0, sd.2 0 0)) = some (' ', F32MIN) ∧
    (' ' : Char) ≠ '@' := by
  refine ⟨by norm_num [F32MIN, F32MAX], ?_, by decide⟩
  rw [draw_line_point blankScreen freshDepth 0 0 F32MIN 1 '@' chosenGlyph_one,
    Option.map_some']
  have hw : wrapCell (0, 0) = some (0, 0) := by decide
  rw [paintCell_nohit F32MIN '@' (blankScreen, freshDepth) (0, 0) 0 0 hw
    (lt_irrefl F32MIN)]
  rfl

/-- C6 amended: over a freshly reset depth buffer (every cell holding the
sentinel `f32::MIN`), a `draw_line` call with any finite `z` strictly
greater than the sentinel paints every guarded cell its walk visits: the
cell ends the call holding the chosen glyph and depth `z`. -/
theorem fresh_depth_amended (screen : Screen) (x0 y0 x1 y1 : ℤ) (z i : ℚ) (g : Char)
    (iy ix : ℕ) (s2 : Screen) (d2 : Depth) (hg : chosenGlyph i = some g)
    (hzmin : F32MIN < z) (hzfin : z ≤ F32MAX)
    (hmem : some (iy, ix) ∈ (bresPoints x0 y0 x1 y1).map wrapCell)
    (h : draw_line screen freshDepth x0 y0 x1 y1 z i = some (s2, d2)) :
    s2 iy ix = g ∧ d2 iy ix = z := by
  rw [draw_line_eq screen freshDepth x0 y0 x1 y1 z i g hg] at h
  have hpair := (Option.some.injEq _ _).mp h
  have hs2 : s2 = (paintCells z g (screen, freshDepth) (bresPoints x0 y0 x1 y1)).1 :=
    (congrArg Prod.fst hpair).symm
  have hd2 : d2 = (paintCells z g (screen, freshDepth) (bresPoints x0 y0 x1 y1)).2 :=
    (congrArg Prod.snd hpair).symm
  subst hs2; subst hd2
  exact paintCells_mem z g (bresPoints x0 y0 x1 y1) (screen, freshDepth) iy ix hmem hzmin

/-- Witness for C6 amended: a single-point draw at `(0, 0)` with `z = 1`
paints cell `(0, 0)` with the glyph `'@'`. -/
theorem fresh_depth_amended_witness :
    (paintCells 1 '@' (blankScreen, freshDepth) (bresPoints 0 0 0 0)).1 0 0 = '@' :=
  (fresh_depth_amended blankScreen 0 0 0 0 1 1 '@' 0 0 _ _ chosenGlyph_one
    F32MIN_lt_one one_le_F32MAX (by decide)
    (draw_line_eq blankScreen freshDepth 0 0 0 0 1 1 '@' chosenGlyph_one)).1

/-! ### C3: the intensity-to-glyph mapping -/

/-- Counterexample to C3 as stated: the source computes the ramp index by
*truncation*, `(intensity * 11.0) as usize`, not by rounding.  At intensity
`1/2` the product is `5.5`: the code truncates to index `5` (glyph `'-'`),
while the claimed round-after-clamp mapping gives index `6` (glyph `'='`). -/
theorem glyph_round_counterexample :
    charIdx (1 / 2) = 5 ∧ specCharIdx (1 / 2) = 6 ∧
    chosenGlyph (1 / 2) = some '-' ∧
    rampChars.get? (specCharIdx (1 / 2)) = some '=' ∧ (5 : ℕ) ≠ 6 := by
  have h1 : charIdx (1 / 2) = 5 := by
    unfold charIdx rampChars
    norm_num
    rfl
  have h2 : specCharIdx (1 / 2) = 6 := by
    unfold specCharIdx rustRound rampChars
    norm_num
    rfl
  refine ⟨h1, h2, ?_, ?_, by decide⟩
  · rw [chosenGlyph, h1]; rfl
  · rw [h2]; rfl

/-- C3 amended: the glyph is chosen once per call by *truncating*
`intensity * (rampLength - 1)` towards zero, with Rust's saturating cast
sending every non-positive product to index `0`; so intensity `0` yields
the sparsest glyph `' '`, intensity `1` the densest `'@'`, any intensity
at most `0` behaves like `0`, intensities in `[1, 12/11)` still behave
like `1`, and intensities at least `12/11` produce an index past the end
of the ramp — an out-of-bounds panic, not a clamp. -/
theorem glyph_mapping_amended :
    chosenGlyph 0 = some ' ' ∧
    chosenGlyph 1 = some '@' ∧
    (∀ i : ℚ, i ≤ 0 → chosenGlyph i = some ' ') ∧
    (∀ i : ℚ, 1 ≤ i → i < 12 / 11 → chosenGlyph i = some '@') ∧
    (∀ i : ℚ, 12 / 11 ≤ i → chosenGlyph i = none) := by
  have hlow : ∀ i : ℚ, i ≤ 0 → chosenGlyph i = some ' ' := by
    intro i hi
    have hc : charIdx i = 0 := by
      unfold charIdx rampChars
      norm_num
      have h2 : i * 11 ≤ 0 := by nlinarith
      have h3 := Int.floor_nonpos h2
      omega
    rw [chosenGlyph, hc]
    rfl
  refine ⟨hlow 0 (le_refl 0), ?_, hlow, ?_, ?_⟩
  · rw [chosenGlyph, charIdx_one]; rfl
  · intro i h1 h2
    have hc : charIdx i = 11 := by
      unfold charIdx rampChars
      norm_num
      have hfl : Int.floor (i * 11) = 11 := by
        rw [Int.floor_eq_iff]
        constructor
        · push_cast; nlinarith
        · push_cast; nlinarith
      rw [hfl]
      rfl
    rw [chosenGlyph, hc]
    rfl
  · intro i hi
    have hc : 12 ≤ charIdx i := by
      unfold charIdx rampChars
      norm_num
      have hfl : (12 : ℤ) ≤ Int.floor (i * 11) := by
        rw [Int.le_floor]
        push_cast
        nlinarith
      omega
    rw [chosenGlyph]
    exact List.get?_eq_none.mpr (by simpa [rampChars] using hc)

/-- Witness for C3 amended: `-1/2` behaves like `0`, `25/24` behaves like
`1`, and `3/2` falls off the ramp. -/
theorem glyph_mapping_amended_witness :
    chosenGlyph (-(1 / 2)) = some ' ' ∧ chosenGlyph (25 / 24) = some '@' ∧
      chosenGlyph (3 / 2) = none :=
  ⟨glyph_mapping_amended.2.2.1 (-(1 / 2)) (by norm_num),
   glyph_mapping_amended.2.2.2.1 (25 / 24) (by norm_num) (by norm_num),
   glyph_mapping_amended.2.2.2.2 (3 / 2) (by norm_num)⟩

/-! ### C7: monotonicity of the projector -/

lemma project_vertex_fst (x y z : ℚ) :
    (project_vertex x y z).1 =
      rustRound (x * (FOCAL_LENGTH / (z + CAMERA_DISTANCE)) + (WIDTH : ℚ) / 2) := rfl

/-- Rust rounding (half away from zero) is monotone. -/
lemma rustRound_mono {q r : ℚ} (h : q ≤ r) : rustRound q ≤ rustRound r := by
  unfold rustRound
  by_cases h1 : 0 ≤ q
  · rw [if_pos h1, if_pos (le_trans h1 h)]
    exact Int.floor_le_floor (by linarith)
  · rw [if_neg h1]
    by_cases h2 : 0 ≤ r
    · rw [if_pos h2]
      have ha : 0 ≤ Int.floor (-q + 1 / 2) := by
        apply Int.le_floor.mpr
        push_cast
        push_neg at h1
        linarith
      have hb : 0 ≤ Int.floor (r + 1 / 2) := by
        apply Int.le_floor.mpr
        push_cast
        linarith
      omega
    · rw [if_neg h2]
      have := Int.floor_le_floor (show -r + 1 / 2 ≤ -q + 1 / 2 by linarith)
      omega

/-- Counterexample to C7 as stated: for `z = -20` the perspective scale
`100 / (z + 10)` is negative, so increasing `x` *decreases* the returned
screen x-coordinate: `project_vertex 1 0 (-20)` lands left of
`project_vertex 0 0 (-20)`. -/
theorem project_monotone_counterexample :
    ((0 : ℚ) < 1) ∧ (project_vertex 1 0 (-20)).1 < (project_vertex 0 0 (-20)).1 := by
  refine ⟨by norm_num, ?_⟩
  rw [project_vertex_fst, project_vertex_fst]
  unfold rustRound FOCAL_LENGTH CAMERA_DISTANCE WIDTH
  norm_num

/-- C7 amended: for every fixed `z` with `z + CAMERA_DISTANCE > 0` (the
geometry regime the camera constant is chosen for) and fixed `y`,
increasing `x` never decreases the returned screen x-coordinate, and
before rounding the increase is strict. -/
theorem project_monotone_amended (x1 x2 y z : ℚ) (hz : -CAMERA_DISTANCE < z)
    (hx : x1 < x2) :
    (project_vertex x1 y z).1 ≤ (project_vertex x2 y z).1 ∧
    x1 * (FOCAL_LENGTH / (z + CAMERA_DISTANCE)) + (WIDTH : ℚ) / 2
      < x2 * (FOCAL_LENGTH / (z + CAMERA_DISTANCE)) + (WIDTH : ℚ) / 2 := by
  have hscale : 0 < FOCAL_LENGTH / (z + CAMERA_DISTANCE) := by
    apply div_pos
    · norm_num [FOCAL_LENGTH]
    · unfold CAMERA_DISTANCE at hz ⊢
      linarith
  have hstrict := mul_lt_mul_of_pos_right hx hscale
  refine ⟨?_, by linarith⟩
  rw [project_vertex_fst, project_vertex_fst]
  exact rustRound_mono (by linarith)

/-- Witness for C7 amended: at `z = 0`, moving from `x = 0` to `x = 1`
does not decrease the projected column. -/
theorem project_monotone_amended_witness :
    (project_vertex 0 0 0).1 ≤ (project_vertex 1 0 0).1 :=
  (project_monotone_amended 0 1 0 0 (by norm_num [CAMERA_DISTANCE]) (by norm_num)).1

/-! ### C8: normalize -/

lemma sqLen_nonneg (v : ℝ × ℝ × ℝ) : 0 ≤ sqLen v := by
  unfold sqLen
  nlinarith [mul_self_nonneg v.1, mul_self_nonneg v.2.1, mul_self_nonneg v.2.2]

lemma sqLen_eq_zero (v : ℝ × ℝ × ℝ) : sqLen v = 0 ↔ v = (0, 0, 0) := by
  rcases v with ⟨a, b, c⟩
  unfold sqLen
  constructor
  · intro h
    have h1 : a * a = 0 := by nlinarith [mul_self_nonneg a, mul_self_nonneg b, mul_self_nonneg c]
    have h2 : b * b = 0 := by nlinarith [mul_self_nonneg a, mul_self_nonneg b, mul_self_nonneg c]
    have h3 : c * c = 0 := by nlinarith [mul_self_nonneg a, mul_self_nonneg b, mul_self_nonneg c]
    rw [mul_self_eq_zero] at h1 h2 h3
    rw [h1, h2, h3]
  · intro h
    injection h with ha hbc
    injection hbc with hb hc
    dsimp only at *
    rw [ha, hb, hc]
    ring

/-- `normalize` fixes unit vectors. -/
lemma normalize_unit (v : ℝ × ℝ × ℝ) (h : sqLen v = 1) : normalize v = v := by
  unfold normalize
  rw [h, Real.sqrt_one, if_neg one_ne_zero]
  simp

/-- C8: `normalize` is total: on the zero vector it returns the zero
vector (no division by zero); on any non-zero vector it returns a
unit-length vector that is a positive scalar multiple of (hence points in
the same direction as) the input; and it is idempotent on unit vectors. -/
theorem normalize_spec :
    normalize (0, 0, 0) = (0, 0, 0) ∧
    (∀ v : ℝ × ℝ × ℝ, v ≠ (0, 0, 0) →
      sqLen (normalize v) = 1 ∧
      ∃ c : ℝ, 0 < c ∧ normalize v = (c * v.1, c * v.2.1, c * v.2.2)) ∧
    (∀ v : ℝ × ℝ × ℝ, sqLen v = 1 → normalize (normalize v) = normalize v) := by
  refine ⟨?_, ?_, ?_⟩
  · unfold normalize
    rw [show sqLen (0, 0, 0) = 0 from (sqLen_eq_zero _).mpr rfl, Real.sqrt_zero,
      if_pos rfl]
  · intro v hv
    have hS : 0 < sqLen v :=
      lt_of_le_of_ne (sqLen_nonneg v) fun h => hv ((sqLen_eq_zero v).mp h.symm)
    have hL : 0 < Real.sqrt (sqLen v) := Real.sqrt_pos.mpr hS
    have hmul : Real.sqrt (sqLen v) * Real.sqrt (sqLen v) = sqLen v :=
      Real.mul_self_sqrt (le_of_lt hS)
    have hn : normalize v = (v.1 / Real.sqrt (sqLen v), v.2.1 / Real.sqrt (sqLen v),
        v.2.2 / Real.sqrt (sqLen v)) := by
      unfold normalize
      rw [if_neg (ne_of_gt hL)]
    have hLne : Real.sqrt (sqLen v) ≠ 0 := ne_of_gt hL
    constructor
    · rw [hn]
      unfold sqLen at hmul hLne ⊢
      dsimp only
      field_simp
      linarith [hmul]
    · refine ⟨1 / Real.sqrt (sqLen v), by positivity, ?_⟩
      rw [hn]
      exact Prod.ext_iff.mpr ⟨by ring, Prod.ext_iff.mpr ⟨by ring, by ring⟩⟩
  · intro v h
    rw [normalize_unit v h]
    exact normalize_unit v h

/-- Witness for C8: `normalize` is idempotent on the unit vector
`(1, 0, 0)`. -/
theorem normalize_spec_witness :
    normalize (normalize (1, 0, 0)) = normalize (1, 0, 0) :=
  normalize_spec.2.2 (1, 0, 0) (by simp [sqLen])

/-! ### C9: the presentation diff -/

/-- C9: the presenter emits a cursor-positioning-plus-character operation
for a cell exactly when the new frame differs from the previous frame
there; identical frames produce zero operations. -/
theorem update_screen_diff :
    (∀ (screen last_screen : Screen) (y x : ℕ) (c : Char),
        (y + 1, x + 1, c) ∈ update_screen screen last_screen ↔
          y < HEIGHT ∧ x < WIDTH ∧ screen y x ≠ last_screen y x ∧ c = screen y x) ∧
    (∀ screen last_screen : Screen,
        (∀ y x : ℕ, y < HEIGHT → x < WIDTH → screen y x = last_screen y x) →
        update_screen screen last_screen = []) := by
  constructor
  · intro screen ls y x c
    unfold update_screen
    rw [List.mem_flatMap]
    constructor
    · rintro ⟨a, ha, hmem⟩
      rw [List.mem_filterMap] at hmem
      obtain ⟨b, hb, hfb⟩ := hmem
      rw [List.mem_range] at ha hb
      by_cases hne : screen a b ≠ ls a b
      · rw [if_pos hne] at hfb
        rw [Option.some.injEq, Prod.ext_iff, Prod.ext_iff] at hfb
        obtain ⟨h1, h2, h3⟩ := hfb
        dsimp only at h1 h2 h3
        have hay : a = y := by omega
        have hbx : b = x := by omega
        subst hay; subst hbx
        exact ⟨ha, hb, hne, h3.symm⟩
      · rw [if_neg hne] at hfb
        exact absurd hfb (by simp)
    · rintro ⟨hy, hx, hne, hc⟩
      refine ⟨y, List.mem_range.mpr hy, ?_⟩
      rw [List.mem_filterMap]
      exact ⟨x, List.mem_range.mpr hx, by rw [if_pos hne, hc]⟩
  · intro screen ls h
    unfold update_screen
    apply List.eq_nil_iff_forall_not_mem.mpr
    intro op hop
    rw [List.mem_flatMap] at hop
    obtain ⟨a, ha, hmem⟩ := hop
    rw [List.mem_filterMap] at hmem
    obtain ⟨b, hb, hfb⟩ := hmem
    rw [List.mem_range] at ha hb
    rw [if_neg (fun hne => hne (h a b ha hb))] at hfb
    exact absurd hfb (by simp)

/-- Witness for C9: two identical blank frames produce zero operations. -/
theorem update_screen_diff_witness :
    update_screen blankScreen blankScreen = [] :=
  update_screen_diff.2 blankScreen blankScreen fun _ _ _ _ => rfl

end Plato
